import Mathlib

/-!
# Verification of the block-validation networking core

A shallow embedding of the repository's peer registry, wire-value
accessors, transaction codec and fee table, with theorems checking the
specification's claims against it.

Go machine integers are modelled as `Nat`/`Int` with explicit wrapping
where the code can overflow; Go byte slices and strings are `List Nat`
(one entry per byte); fallible operations return `Option`; a Go `panic`
is an explicit constructor of a result type.
-/

namespace BlockValidation

/-! ## WireValue and the wire codec

The decoded node of the recursive binary format: a byte-string leaf or an
ordered sequence of nodes (spec §3, "WireValue"). -/

inductive WireValue where
| bytes (b : List Nat)
| seq (l : List WireValue)

mutual

/-- Modelled from the spec: the codec functions `Encode`/`Decode` called by
`Value.Encode` and `NewValueFromBytes` live in a file that is not under
`src/`. Per spec §4.1 the format is self-describing and length-prefixed:
a byte-string is emitted as a tag, its length, then its raw bytes; a
sequence is emitted as a tag, the length of the concatenated child
encodings, then those encodings. `encodeW` encodes one node. -/
def encodeW : WireValue → List Nat
| .bytes b => 0 :: b.length :: b
| .seq l => let p := encodeL l; 1 :: p.length :: p

/-- Encode a list of nodes by concatenating the encodings in order. -/
def encodeL : List WireValue → List Nat
| [] => []
| v :: vs => encodeW v ++ encodeL vs

end

mutual

/-- Modelled from the spec: the decoder half of the missing codec.
`decodeW fuel data` parses one length-prefixed item off the front of
`data`, returning it with the unconsumed tail; a short or malformed
item yields `none` (spec §4.1: a malformed length prefix fails with a
DecodeError and must not panic or read out of bounds). `fuel` bounds
the recursion depth; `Decode` below supplies a sufficient amount. -/
def decodeW : Nat → List Nat → Option (WireValue × List Nat)
| 0, _ => none
| _ + 1, 0 :: n :: rest =>
    if n ≤ rest.length then some (.bytes (rest.take n), rest.drop n) else none
| f + 1, 1 :: n :: rest =>
    if n ≤ rest.length then
      match decodeL f (rest.take n) with
      | some items => some (.seq items, rest.drop n)
      | none => none
    else none
| _ + 1, _ => none

/-- Parse a maximal run of items from an exact payload segment. -/
def decodeL : Nat → List Nat → Option (List WireValue)
| _, [] => some []
| 0, _ :: _ => none
| f + 1, d =>
    match decodeW f d with
    | some (v, rest) =>
        match decodeL f rest with
        | some vs => some (v :: vs)
        | none => none
    | none => none

end

/-- `Value.Encode` (src/server.go:499-501): encode the value's payload. -/
def Encode (v : WireValue) : List Nat := encodeW v

/-- `Decode(data, 0)` as invoked by `NewValueFromBytes`: parse one item
from the front of `data`. The fuel `data.length` is sufficient for every
well-formed input (each recursive step consumes input). -/
def Decode (data : List Nat) : Option (WireValue × List Nat) :=
  decodeW data.length data

/-- `NewValueFromBytes` (src/server.go:503-510): a non-empty input is
decoded; an empty input yields the nil value (modelled as `none`). -/
def NewValueFromBytes (data : List Nat) : Option WireValue :=
  if data.length ≠ 0 then (Decode data).map Prod.fst else none

mutual

/-- Number of nodes and list links in one node; a lower bound on the
decoder fuel the node's encoding needs. -/
def sizeW : WireValue → Nat
| .bytes _ => 1
| .seq l => sizeL l + 1

/-- Number of nodes and list links in a forest. -/
def sizeL : List WireValue → Nat
| [] => 0
| v :: vs => sizeW v + sizeL vs + 1

end

/-! ## ethutil.Value: the decoded-value abstraction

`Value.Val` is a Go `interface\x7b\x7d`; the accessors inspect its dynamic
type (src/server.go:349-493). One constructor per dynamic type the
accessors distinguish. -/

inductive Value where
| vbytes (b : List Nat)
| vstring (s : List Nat)
| vlist (l : List Value)
| vu8 (n : Nat)
| vu16 (n : Nat)
| vu32 (n : Nat)
| vu64 (n : Nat)
| vint (n : Int)
| vuint (n : Nat)
| vbig (n : Int)
| vnil

/-- The big-endian integer value of a byte string. -/
def beVal (b : List Nat) : Nat := b.foldl (fun acc x => acc * 256 + x) 0

/-- Modelled from the spec: `ReadVarint`, called by `Value.Uint` on a
byte-string payload (src/server.go:404), is defined in a file not under
`src/`. Spec §4.1: unsigned-integer coercion accepts encodings of width
1/2/4/8 bytes and raw byte-strings treated as big-endian integers, so
the reader consumes a fixed-width big-endian integer matching the
buffer width (8, 4 or 2 bytes, else a single byte). -/
def ReadVarint (b : List Nat) : Nat :=
  if b.length = 8 then beVal (b.take 8)
  else if b.length = 4 then beVal (b.take 4)
  else if b.length = 2 then beVal (b.take 2)
  else beVal (b.take 1)

/-- `Value.Uint` (src/server.go:390-408): widen a native unsigned value,
reinterpret a native `int`/`uint`, read a byte-string as a big-endian
integer, and return 0 for every other payload. The `int` case is Go's
`uint64(Val)` conversion, which wraps modulo 2^64. -/
def Value.Uint : Value → Nat
| .vu8 n => n
| .vu16 n => n
| .vu32 n => n
| .vu64 n => n
| .vint n => (n % (2 ^ 64 : Int)).toNat
| .vuint n => n
| .vbytes b => ReadVarint b
| _ => 0

/-- `Value.Byte` (src/server.go:410-416): Go `byte` is `uint8`. -/
def Value.Byte : Value → Nat
| .vu8 n => n
| _ => 0

/-- `Value.Str` (src/server.go:432-440): a byte slice is converted with
`string(a)` (the same bytes), a string is returned as is, anything else
yields the empty string. -/
def Value.Str : Value → List Nat
| .vbytes b => b
| .vstring s => s
| _ => []

/-- `Value.Bytes` (src/server.go:442-448). -/
def Value.Bytes : Value → List Nat
| .vbytes b => b
| _ => []

/-- `Value.Slice` (src/server.go:450-456). -/
def Value.Slice : Value → List Value
| .vlist l => l
| _ => []

/-- Whether the payload is a Go `[]interface\x7b\x7d` slice. -/
def Value.isSlice : Value → Bool
| .vlist _ => true
| _ => false

/-- Whether `Value.Uint` has a case for the payload's dynamic type. -/
def Value.isUintLike : Value → Bool
| .vu8 _ => true
| .vu16 _ => true
| .vu32 _ => true
| .vu64 _ => true
| .vint _ => true
| .vuint _ => true
| .vbytes _ => true
| _ => false

/-- Whether the payload is a Go `byte` (`uint8`). -/
def Value.isU8 : Value → Bool
| .vu8 _ => true
| _ => false

/-- Whether the payload is a byte slice. -/
def Value.isBytes : Value → Bool
| .vbytes _ => true
| _ => false

/-- Whether the payload is a byte slice or a string. -/
def Value.isStrLike : Value → Bool
| .vbytes _ => true
| .vstring _ => true
| _ => false

/-- Result of `Value.Get`: either a value (`NewValue(...)`) or a Go
panic. -/
inductive GetResult where
| ok (v : Value)
| panicked

/-- `Value.Get` (src/server.go:477-493), in the code's test order: on a
slice payload, first the out-of-bounds guard `len(d) <= idx` returning
the nil value, then the `idx < 0` panic, then the indexing; on any
other payload the nil value is returned at once. -/
def Value.Get : Value → Int → GetResult
| .vlist d, idx =>
    if (d.length : Int) ≤ idx then .ok .vnil
    else if idx < 0 then .panicked
    else .ok (d.getD idx.toNat .vnil)
| _, _ => .ok .vnil

/-! ## Peers, reaping and broadcast -/

/-- A queued wire message. Modelled from the spec: `ethwire.Msg` is not
under `src/`; spec §6 says a message is a message-type identifier and a
payload. -/
structure Msg where
  msgType : Nat
  data : List Nat
deriving DecidableEq

/-- Modelled from the spec: `ethwire.NewMessage(msgType, data)`
(called at src/server.go:122) pairs the type with the payload. -/
def NewMessage (msgType : Nat) (data : List Nat) : Msg := ⟨msgType, data⟩

/-- The peer state the registry code reads: the atomic `disconnect`
flag, the `inbound` role, the `lastPong` liveness timestamp (Unix
seconds) and the outgoing message queue. -/
structure Peer where
  disconnect : Int
  inbound : Bool
  lastPong : Int
  queue : List Msg
deriving DecidableEq

/-- The per-peer dead test applied by `ReapDeadPeers`
(src/server.go:129): `atomic.LoadInt32(&p.disconnect) == 1 ||
(p.inbound && (time.Now().Unix()-p.lastPong) > int64(5*time.Minute))`.
The timestamps are Unix seconds, while Go's `5*time.Minute` is a
`time.Duration` counted in nanoseconds, so the constant compared
against the seconds difference is 300000000000. -/
def isDeadPeer (disconnect : Int) (inbound : Bool) (now lastPong : Int) : Bool :=
  disconnect == 1 || (inbound && (now - lastPong > 300000000000))

/-- Modelled from the spec: the dead-peer classification of §4.2 - dead
iff the disconnect flag is set, or the peer is inbound and more than
the 5-minute liveness timeout (300 seconds) has passed since the last
liveness update, both timestamps in Unix seconds. -/
def specDeadPeer (disconnect : Int) (inbound : Bool) (now lastPong : Int) : Bool :=
  disconnect == 1 || (inbound && (now - lastPong > 300))

/-- The code's dead test applied to a peer at time `now`. -/
def peerDead (now : Int) (p : Peer) : Bool :=
  isDeadPeer p.disconnect p.inbound now p.lastPong

/-- One pass of the reaper's scan (src/server.go:126-138): `eachPeer`
advances with `e = e.Next()` and the callback calls `s.peers.Remove(e)`
on a dead peer. Go's `container/list` `Remove` nils the element's
`next` and `list` pointers, so after a removal `e.Next()` returns nil
and the traversal ends: a pass deletes the first dead peer it meets and
leaves the rest of the list unvisited. -/
def reapScanOnce (now : Int) : List Peer → List Peer
| [] => []
| p :: rest => if peerDead now p then rest else p :: reapScanOnce now rest

/-- `Server.InboundPeers` (src/server.go:106-118): the registered peers
whose role is inbound, in registry order. -/
def InboundPeers (peers : List Peer) : List Peer :=
  peers.filter (fun p => p.inbound)

/-- Modelled from the spec: `Peer.QueueMessage` is not under `src/`;
spec §4.2: it appends a framed message to the peer's outgoing queue. -/
def QueueMessage (p : Peer) (m : Msg) : Peer :=
  { p with queue := p.queue ++ [m] }

/-- `Server.Broadcast` (src/server.go:120-124): `eachPeer` over the
registry, enqueueing a fresh `NewMessage(msgType, data)` on every
peer's queue; no peer's enqueue depends on another's. -/
def Broadcast (peers : List Peer) (msgType : Nat) (data : List Nat) : List Peer :=
  peers.map (fun p => QueueMessage p (NewMessage msgType data))

/-! ## The fee table -/

/-- The package-level fee variables set by `InitFees`
(src/server.go:231-242, 296-336), gathered into one record; `big.Int`
values are `Int`. -/
structure FeeSchedule where
  StepFee : Int
  TxFee : Int
  ContractFee : Int
  MemFee : Int
  DataFee : Int
  CryptoFee : Int
  ExtroFee : Int
  Period1Reward : Int
  Period2Reward : Int
  Period3Reward : Int
  Period4Reward : Int

/-- `InitFees` (src/server.go:296-336) as a pure computation of the fee
table: `b60` holds 2^64 (the comment says 2**60 but the code computes
`Exp(2, 64)`), `b80` holds 2^80, and each fee is a `big.Int` `Div`,
`Exp` or `Mul` on those bases. `big.Int.Div` on positive operands is
integer division. -/
def InitFees : FeeSchedule :=
  let b60 : Int := 2 ^ 64
  let b80 : Int := 2 ^ 80
  { StepFee := b60 / 64
    TxFee := 2 ^ 64
    ContractFee := 2 ^ 64
    MemFee := b60 / 4
    DataFee := b60 / 16
    CryptoFee := b60 / 16
    ExtroFee := b60 / 16
    Period1Reward := b80 * 1024
    Period2Reward := b80 * 512
    Period3Reward := b80 * 256
    Period4Reward := b80 * 128 }

/-! ## SHA-256

The digest used by `NewTransaction` for the content address
(`crypto/sha256`, src/server.go:275). Word state is kept as `Nat`
reduced modulo 2^32 at every operation. -/

/-- 32-bit right rotation. -/
def rotr (n x : Nat) : Nat := ((x >>> n) ||| (x <<< (32 - n))) % 2 ^ 32

/-- The σ0 message-schedule function. -/
def smallSigma0 (x : Nat) : Nat := (rotr 7 x) ^^^ (rotr 18 x) ^^^ (x >>> 3)

/-- The σ1 message-schedule function. -/
def smallSigma1 (x : Nat) : Nat := (rotr 17 x) ^^^ (rotr 19 x) ^^^ (x >>> 10)

/-- The Σ0 compression function. -/
def bigSigma0 (x : Nat) : Nat := (rotr 2 x) ^^^ (rotr 13 x) ^^^ (rotr 22 x)

/-- The Σ1 compression function. -/
def bigSigma1 (x : Nat) : Nat := (rotr 6 x) ^^^ (rotr 11 x) ^^^ (rotr 25 x)

/-- The SHA-256 round constants (decimal). -/
def shaK : List Nat :=
  [1116352408, 1899447441, 3049323471, 3921009573, 961987163,
   1508970993, 2453635748, 2870763221, 3624381080, 310598401,
   607225278, 1426881987, 1925078388, 2162078206, 2614888103,
   3248222580, 3835390401, 4022224774, 264347078, 604807628,
   770255983, 1249150122, 1555081692, 1996064986, 2554220882,
   2821834349, 2952996808, 3210313671, 3336571891, 3584528711,
   113926993, 338241895, 666307205, 773529912, 1294757372,
   1396182291, 1695183700, 1986661051, 2177026350, 2456956037,
   2730485921, 2820302411, 3259730800, 3345764771, 3516065817,
   3600352804, 4094571909, 275423344, 430227734, 506948616,
   659060556, 883997877, 958139571, 1322822218, 1537002063,
   1747873779, 1955562222, 2024104815, 2227730452, 2361852424,
   2428436474, 2756734187, 3204031479, 3329325298]

/-- The SHA-256 initial hash value (decimal). -/
def shaInit : List Nat :=
  [1779033703, 3144134277, 1013904242, 2773480762,
   1359893119, 2600822924, 528734635, 1541459225]

/-- Group bytes into big-endian 32-bit words. -/
def toWords : List Nat → List Nat
| b0 :: b1 :: b2 :: b3 :: rest => (((b0 * 256 + b1) * 256 + b2) * 256 + b3) :: toWords rest
| _ => []

/-- Extend a 16-word block by `k` message-schedule words. -/
def extendW : List Nat → Nat → List Nat
| w, 0 => w
| w, k + 1 =>
    let i := w.length
    let wn := (smallSigma1 (w.getD (i - 2) 0) + w.getD (i - 7) 0 +
               smallSigma0 (w.getD (i - 15) 0) + w.getD (i - 16) 0) % 2 ^ 32
    extendW (w ++ [wn]) k

/-- One SHA-256 round on the eight-word working state. -/
def shaRound (st : List Nat) (k w : Nat) : List Nat :=
  match st with
  | [a, b, c, d, e, f, g, h] =>
      let ch := (e &&& f) ^^^ ((e ^^^ 0xffffffff) &&& g)
      let maj := (a &&& b) ^^^ (a &&& c) ^^^ (b &&& c)
      let t1 := (h + bigSigma1 e + ch + k + w) % 2 ^ 32
      let t2 := (bigSigma0 a + maj) % 2 ^ 32
      [(t1 + t2) % 2 ^ 32, a, b, c, (d + t1) % 2 ^ 32, e, f, g]
  | _ => st

/-- Compress one 64-byte block into the hash state. -/
def compress (st : List Nat) (block : List Nat) : List Nat :=
  let w := extendW (toWords block) 48
  let final := (List.zip shaK w).foldl (fun s kw => shaRound s kw.1 kw.2) st
  (List.zip st final).map (fun p => (p.1 + p.2) % 2 ^ 32)

/-- Split a byte list into 64-byte chunks. -/
def chunk64 (l : List Nat) : List (List Nat) :=
  if h : l = [] then []
  else (l.take 64) :: chunk64 (l.drop 64)
termination_by l.length
decreasing_by
  have hp := List.length_pos.mpr h
  simp only [List.length_drop]
  omega

/-- SHA-256 padding: a 0x80 byte, zeros to 56 mod 64, and the bit
length as a big-endian 64-bit integer. -/
def shaPad (msg : List Nat) : List Nat :=
  let L := msg.length
  let zeros := (64 - ((L + 9) % 64)) % 64
  let lenBytes := (List.range 8).map (fun i => ((8 * L) >>> (8 * (7 - i))) % 256)
  msg ++ [0x80] ++ List.replicate zeros 0 ++ lenBytes

/-- `sha256.Sum256`: the 32 digest bytes of a message. -/
def sha256 (msg : List Nat) : List Nat :=
  let final := (chunk64 (shaPad msg)).foldl compress shaInit
  final.foldr (fun w acc => [(w >>> 24) % 256, (w >>> 16) % 256, (w >>> 8) % 256, w % 256] ++ acc) []

/-! ## The transaction codec -/

/-- `Transaction` (src/server.go:244-257); Go strings are byte lists,
the `uint32` fields are `Nat` values below 2^32 by convention, `data`
holds the compiled instruction strings. -/
structure Transaction where
  sender : List Nat
  recipient : Nat
  value : Nat
  fee : Nat
  data : List (List Nat)
  memory : List Int
  signature : List Nat
  addr : List Nat

/-- Modelled from the spec: `Uitoa`, used by `MarshalRlp` for the
recipient, value and fee fields, is not under `src/`; spec §4.4 encodes
those fields in their numeric textual form, i.e. decimal digits. -/
def Uitoa (n : Nat) : List Nat := (Nat.repr n).data.map Char.toNat

/-- `Transaction.MarshalRlp` (src/server.go:281-294): the canonical
field order - the previous-transaction placeholder "0" (byte 48), the
sender, the recipient, value and fee in numeric textual form, then the
instruction list - assembled as a WireValue sequence and passed through
the wire codec (`RlpEncode` itself is not under `src/`; the tree shape
is fixed by `preEnc`). -/
def Transaction.MarshalRlp (tx : Transaction) : List Nat :=
  Encode (.seq [.bytes [48], .bytes tx.sender, .bytes (Uitoa tx.recipient),
    .bytes (Uitoa tx.value), .bytes (Uitoa tx.fee),
    .seq (tx.data.map WireValue.bytes)])

/-- The byte value of a lowercase hexadecimal digit. -/
def hexDigit (n : Nat) : Nat := if n < 10 then 48 + n else 87 + n

/-- `hex.EncodeToString`: two lowercase hex digit bytes per input byte. -/
def hexEncode (bs : List Nat) : List Nat :=
  bs.foldr (fun b acc => hexDigit (b / 16 % 16) :: hexDigit (b % 16) :: acc) []

/-- The content address computed by `NewTransaction`
(src/server.go:274-276): `hash := sha256.Sum256(tx.MarshalRlp())`,
`tx.addr = hex.EncodeToString(hash[0:19])`. -/
def deriveAddress (tx : Transaction) : List Nat :=
  hexEncode ((sha256 tx.MarshalRlp).take 19)

/-! ## Theorems -/

theorem sizeW_pos (v : WireValue) : 1 ≤ sizeW v := by
  cases v <;> simp [sizeW]

mutual

theorem sizeW_le_length_encodeW (v : WireValue) :
    sizeW v + 1 ≤ (encodeW v).length := by
  cases v with
  | bytes b => simp [sizeW, encodeW]
  | seq l =>
      have h := sizeL_le_length_encodeL l
      simp only [sizeW, encodeW, List.length_cons]
      omega

theorem sizeL_le_length_encodeL (l : List WireValue) :
    sizeL l ≤ (encodeL l).length := by
  cases l with
  | nil => simp [sizeL, encodeL]
  | cons v vs =>
      have h1 := sizeW_le_length_encodeW v
      have h2 := sizeL_le_length_encodeL vs
      simp only [sizeL, encodeL, List.length_append]
      omega

end

/-- An encoding is never empty: it starts with its tag. -/
theorem encodeW_ne_nil (v : WireValue) : encodeW v ≠ [] := by
  cases v <;> simp [encodeW]

/-- The decoder undoes the encoder whenever it is given at least
`sizeW v` fuel, leaving trailing bytes as the unconsumed tail. -/
theorem decodeW_encodeW :
    ∀ f : Nat,
      (∀ v rest, sizeW v ≤ f → decodeW f (encodeW v ++ rest) = some (v, rest)) ∧
      (∀ l, sizeL l ≤ f → decodeL f (encodeL l) = some l) := by
  intro f
  induction f using Nat.strong_induction_on with
  | _ f ih =>
    cases f with
    | zero =>
        constructor
        · intro v rest h
          have := sizeW_pos v
          omega
        · intro l h
          cases l with
          | nil => simp [encodeL, decodeL]
          | cons v vs =>
              simp [sizeL] at h
    | succ f =>
        have ihf := ih f (Nat.lt_succ_self f)
        constructor
        · intro v rest h
          cases v with
          | bytes b =>
              simp only [encodeW, List.cons_append, decodeW]
              rw [if_pos (by simp)]
              rw [List.take_left, List.drop_left]
          | seq l =>
              have hl : sizeL l ≤ f := by
                simp only [sizeW] at h
                omega
              simp only [encodeW, List.cons_append, decodeW]
              rw [if_pos (by simp), List.take_left, List.drop_left,
                (ihf.2) l hl]
        · intro l h
          cases l with
          | nil => simp [encodeL, decodeL]
          | cons v vs =>
              have hv : sizeW v ≤ f := by
                simp only [sizeL] at h
                omega
              have hvs : sizeL vs ≤ f := by
                simp only [sizeL] at h
                omega
              obtain ⟨w, hw⟩ : ∃ w, encodeW v ++ encodeL vs = w := ⟨_, rfl⟩
              have hne : w ≠ [] := by
                intro hnil
                exact encodeW_ne_nil v (List.append_eq_nil.mp (hw ▸ hnil)).1
              simp only [encodeL, hw]
              cases w with
              | nil => exact absurd rfl hne
              | cons a as =>
                  simp only [decodeL]
                  rw [← hw, (ihf.1) v (encodeL vs) hv]
                  simp [(ihf.2) vs hvs]

/-- C1: decoding the encoding of any finite WireValue tree through
`NewValueFromBytes` returns a value equal to the original tree
(value-level equality). -/
theorem decode_encode_roundtrip (v : WireValue) :
    NewValueFromBytes (Encode v) = some v := by
  have hfuel : sizeW v ≤ (encodeW v).length := by
    have := sizeW_le_length_encodeW v
    omega
  have h := (decodeW_encodeW ((encodeW v).length)).1 v [] hfuel
  rw [List.append_nil] at h
  have hne : (encodeW v).length ≠ 0 := by
    simpa [List.length_eq_zero] using encodeW_ne_nil v
  unfold NewValueFromBytes Decode Encode
  rw [if_pos hne, h]
  rfl

/-- C2: the dead-peer test of `ReapDeadPeers` does not implement the
5-minute rule. An inbound peer with the disconnect flag clear and a
liveness timestamp 301 seconds old is dead per the spec predicate but
alive per the code, because the code compares a difference of Unix
seconds against `int64(5*time.Minute)`, which is 300000000000
nanoseconds; the outbound half of the rule does agree (an outbound
peer with the flag clear is never dead, however stale its timestamp). -/
theorem reap_dead_test_units_bug :
    isDeadPeer 0 true 1000 699 = false ∧
    specDeadPeer 0 true 1000 699 = true ∧
    (∀ now lastPong : Int, isDeadPeer 0 false now lastPong = false) :=
  ⟨by decide, by decide, fun now lastPong => rfl⟩

/-- C3: the spec's concrete scenario holds - three inbound live-looking
peers of which exactly one has the disconnect flag set, and one scan
leaves `InboundPeers` of length 2 - but a single scan does not remove
every dead peer: with two flagged peers the pass removes only the first
(the `container/list` traversal ends at the removed element), so a peer
the dead test accepts is still registered after one pass. -/
theorem reap_single_scan_incomplete :
    (InboundPeers (reapScanOnce 1000
        [⟨0, true, 1000, []⟩, ⟨1, true, 1000, []⟩, ⟨0, true, 1000, []⟩])).length = 2 ∧
    reapScanOnce 1000 [⟨1, true, 900, []⟩, ⟨1, true, 900, []⟩] = [⟨1, true, 900, []⟩] ∧
    peerDead 1000 ⟨1, true, 900, []⟩ = true := by
  refine ⟨by decide, by decide, by decide⟩

/-- C4: indexing a decoded Sequence with a non-negative index at or
past its length yields the nil value without a panic, and indexing it
with a negative index panics. -/
theorem get_on_sequence (d : List Value) (idx : Int) :
    ((d.length : Int) ≤ idx → Value.Get (.vlist d) idx = .ok .vnil) ∧
    (idx < 0 → Value.Get (.vlist d) idx = .panicked) := by
  constructor
  · intro h
    simp [Value.Get, h]
  · intro h
    have hlt : ¬ ((d.length : Int) ≤ idx) := by
      have : (0 : Int) ≤ (d.length : Int) := Int.natCast_nonneg d.length
      omega
    simp [Value.Get, hlt, h]

/-- Witness for `get_on_sequence` on a one-element sequence. -/
theorem get_on_sequence_wit :
    Value.Get (.vlist [.vnil]) 5 = .ok .vnil ∧
    Value.Get (.vlist [.vnil]) (-1) = .panicked :=
  ⟨(get_on_sequence [.vnil] 5).1 (by decide),
   (get_on_sequence [.vnil] (-1)).2 (by decide)⟩

/-- C5: on a byte-string payload of width 1, 2, 4 or 8 the unsigned
accessor returns the big-endian integer value of the bytes, and a
native unsigned payload of any width holding that same number returns
the same value. -/
theorem uint_bigendian (b : List Nat)
    (h : b.length = 1 ∨ b.length = 2 ∨ b.length = 4 ∨ b.length = 8) :
    Value.Uint (.vbytes b) = beVal b ∧
    Value.Uint (.vu8 (beVal b)) = Value.Uint (.vbytes b) ∧
    Value.Uint (.vu16 (beVal b)) = Value.Uint (.vbytes b) ∧
    Value.Uint (.vu32 (beVal b)) = Value.Uint (.vbytes b) ∧
    Value.Uint (.vu64 (beVal b)) = Value.Uint (.vbytes b) := by
  have htake : ∀ n, b.length = n → b.take n = b := by
    intro n hn
    exact List.take_of_length_le (by omega)
  have hb : Value.Uint (.vbytes b) = beVal b := by
    rcases h with h | h | h | h <;>
      simp [Value.Uint, ReadVarint, h, htake _ h]
  exact ⟨hb, by rw [hb]; rfl, by rw [hb]; rfl, by rw [hb]; rfl,
    by rw [hb]; rfl⟩

/-- Witness for `uint_bigendian` at the two-byte string 0x0102. -/
theorem uint_bigendian_wit :
    Value.Uint (.vbytes [1, 2]) = beVal [1, 2] ∧
    Value.Uint (.vu8 (beVal [1, 2])) = Value.Uint (.vbytes [1, 2]) ∧
    Value.Uint (.vu16 (beVal [1, 2])) = Value.Uint (.vbytes [1, 2]) ∧
    Value.Uint (.vu32 (beVal [1, 2])) = Value.Uint (.vbytes [1, 2]) ∧
    Value.Uint (.vu64 (beVal [1, 2])) = Value.Uint (.vbytes [1, 2]) :=
  uint_bigendian [1, 2] (by decide)

/-- C6: each type-coercing accessor returns its documented zero value,
and in particular does not panic, whenever the payload's dynamic type
does not match the accessor: 0 for `Uint` and `Byte`, the empty string
or byte slice for `Str` and `Bytes`, the empty sequence for `Slice`. -/
theorem accessors_zero_on_mismatch (v : Value) :
    (v.isUintLike = false → Value.Uint v = 0) ∧
    (v.isU8 = false → Value.Byte v = 0) ∧
    (v.isStrLike = false → Value.Str v = []) ∧
    (v.isBytes = false → Value.Bytes v = []) ∧
    (v.isSlice = false → Value.Slice v = []) := by
  refine ⟨?_, ?_, ?_, ?_, ?_⟩ <;> intro h <;> cases v <;>
    first
      | rfl
      | simp [Value.isUintLike, Value.isU8, Value.isStrLike,
          Value.isBytes, Value.isSlice] at h

/-- Witness for `accessors_zero_on_mismatch` at the nil payload. -/
theorem accessors_zero_on_mismatch_wit :
    Value.Uint .vnil = 0 ∧ Value.Byte .vnil = 0 ∧ Value.Str .vnil = [] ∧
    Value.Bytes .vnil = [] ∧ Value.Slice .vnil = [] :=
  ⟨(accessors_zero_on_mismatch .vnil).1 rfl,
   (accessors_zero_on_mismatch .vnil).2.1 rfl,
   (accessors_zero_on_mismatch .vnil).2.2.1 rfl,
   (accessors_zero_on_mismatch .vnil).2.2.2.1 rfl,
   (accessors_zero_on_mismatch .vnil).2.2.2.2 rfl⟩

/-- C7: a broadcast keeps the registry's length and appends to each
registered peer's queue exactly one message carrying the broadcast type
and payload; the entry at each position is a function of that peer
alone, so no peer's enqueue can prevent another's. -/
theorem broadcast_enqueues_each (peers : List Peer) (msgType : Nat) (data : List Nat) :
    (Broadcast peers msgType data).length = peers.length ∧
    ∀ i : Nat, (Broadcast peers msgType data)[i]? =
      (peers[i]?).map
        (fun p : Peer => { p with queue := p.queue ++ [NewMessage msgType data] }) := by
  constructor
  · simp [Broadcast]
  · intro i
    simp [Broadcast, QueueMessage, List.getElem?_map]

/-- C8: two transactions agreeing on sender, recipient, value, fee and
instruction data marshal to identical bytes and derive identical
content addresses (the signature, memory and cached address fields do
not enter the encoding), and the derived address is the hex form of the
leading 19 bytes of the SHA-256 digest of the canonical encoding. -/
theorem marshal_deterministic (t1 t2 : Transaction)
    (hs : t1.sender = t2.sender) (hr : t1.recipient = t2.recipient)
    (hv : t1.value = t2.value) (hf : t1.fee = t2.fee)
    (hd : t1.data = t2.data) :
    t1.MarshalRlp = t2.MarshalRlp ∧
    deriveAddress t1 = deriveAddress t2 ∧
    deriveAddress t1 = hexEncode ((sha256 t1.MarshalRlp).take 19) := by
  have hm : t1.MarshalRlp = t2.MarshalRlp := by
    simp [Transaction.MarshalRlp, hs, hr, hv, hf, hd]
  exact ⟨hm, by simp [deriveAddress, hm], rfl⟩

/-- Witness for `marshal_deterministic`: two transactions equal on the
encoded fields but differing in signature, memory and cached address. -/
theorem marshal_deterministic_wit :
    (Transaction.mk [49] 1 2 3 [[0]] [] [7] []).MarshalRlp
      = (Transaction.mk [49] 1 2 3 [[0]] [5] [9] [1]).MarshalRlp ∧
    deriveAddress (Transaction.mk [49] 1 2 3 [[0]] [] [7] [])
      = deriveAddress (Transaction.mk [49] 1 2 3 [[0]] [5] [9] [1]) ∧
    deriveAddress (Transaction.mk [49] 1 2 3 [[0]] [] [7] [])
      = hexEncode ((sha256 (Transaction.mk [49] 1 2 3 [[0]] [] [7] []).MarshalRlp).take 19) :=
  marshal_deterministic
    (Transaction.mk [49] 1 2 3 [[0]] [] [7] [])
    (Transaction.mk [49] 1 2 3 [[0]] [5] [9] [1])
    rfl rfl rfl rfl rfl

/-- C9: the fee table computed by `InitFees`: StepFee is 2^64/64,
TxFee and ContractFee are 2^64, MemFee is 2^64/4, DataFee, CryptoFee
and ExtroFee are 2^64/16, and the period rewards are 2^80 multiplied
by 1024, 512, 256 and 128; the table is a constant of the model. -/
theorem initfees_values :
    InitFees.StepFee = 2 ^ 64 / 64 ∧ InitFees.StepFee = 2 ^ 58 ∧
    InitFees.TxFee = 2 ^ 64 ∧ InitFees.ContractFee = 2 ^ 64 ∧
    InitFees.MemFee = 2 ^ 64 / 4 ∧ InitFees.MemFee = 2 ^ 62 ∧
    InitFees.DataFee = 2 ^ 64 / 16 ∧ InitFees.CryptoFee = 2 ^ 64 / 16 ∧
    InitFees.ExtroFee = 2 ^ 64 / 16 ∧ InitFees.DataFee = 2 ^ 60 ∧
    InitFees.Period1Reward = 2 ^ 80 * 1024 ∧
    InitFees.Period2Reward = 2 ^ 80 * 512 ∧
    InitFees.Period3Reward = 2 ^ 80 * 256 ∧
    InitFees.Period4Reward = 2 ^ 80 * 128 := by
  refine ⟨rfl, by decide, rfl, rfl, rfl, by decide, rfl, rfl, rfl,
    by decide, rfl, rfl, rfl, rfl⟩

/-- C10: `Value.Get` on any payload that is not a sequence returns the
nil value for every index, negative ones included, and never panics;
the negative-index panic is reachable only on sequence payloads. -/
theorem get_on_non_sequence (v : Value) (idx : Int) (h : v.isSlice = false) :
    Value.Get v idx = .ok .vnil := by
  cases v <;>
    first
      | rfl
      | simp [Value.isSlice] at h

/-- Witness for `get_on_non_sequence`: a byte-string payload indexed
with a negative index. -/
theorem get_on_non_sequence_wit :
    Value.Get (.vbytes [1, 2]) (-3) = .ok .vnil :=
  get_on_non_sequence (.vbytes [1, 2]) (-3) rfl

end BlockValidation
